import Mathlib

/-!
Verification of the watson codec core: a stack-machine decoder (VM) and an
encoder (Dumper) compiling tagged values into zero-argument op sequences.

Modelling conventions used throughout this development:
* Go `uint64` / `int64` / `float64` payloads are represented by their raw
  64-bit patterns as `Nat` below `2 ^ 64`; two's-complement and IEEE-754
  interpretation is applied explicitly where an operation depends on it.
* Go byte strings are `List Nat` with every element below 256.
* Go `map[string]*Value` is an association list with distinct keys; the
  list order stands for the (otherwise unspecified) iteration order.
* Fallible Go code returns `Except`/an error component; a Go `panic` is
  modelled as a dedicated error constructor.
-/

/-- Op is the closed instruction enumeration of the codec
(`Inew .. Nnew`), carried over verbatim from the shared Op definitions. -/
inductive Op where
  | Inew | Iinc | Ishl | Iadd | Ineg | Isht | Itou | Itof
  | Fneg | Fnan | Finf
  | Snew | Sadd
  | Onew | Oadd
  | Anew | Aadd
  | Bnew | Bneg
  | Nnew
deriving DecidableEq, Repr

/-- Value is the tagged data model. Numeric payloads are stored as raw
64-bit patterns (`Nat < 2 ^ 64`). `vUnknown k` stands for a `types.Value`
whose integer kind tag `k` is none of the eight defined kinds; the
well-formedness predicates below rule it out. -/
inductive Value where
  | vInt (bits : Nat)
  | vUint (bits : Nat)
  | vFloat (bits : Nat)
  | vString (s : List Nat)
  | vObject (entries : List (List Nat × Value))
  | vArray (elems : List Value)
  | vBool (b : Bool)
  | vNil
  | vUnknown (k : Int)
deriving Repr

/-- Bit pattern of `+Infinity` (IEEE-754 binary64). -/
def posInfBits : Nat := 0x7FF0000000000000

/-- Bit pattern of `-Infinity` (IEEE-754 binary64). -/
def negInfBits : Nat := 0xFFF0000000000000

/-- Bit pattern produced by Go's `math.NaN()`: the canonical quiet NaN. -/
def nanBits : Nat := 0x7FF8000000000001

/-- A 64-bit float pattern is a NaN iff its exponent field (bits 52..62)
is all ones and its mantissa (bits 0..51) is nonzero; this is what Go's
`math.IsNaN` (defined as `x != x`) recognises. -/
def isNaNBits (b : Nat) : Bool :=
  decide (b / 2 ^ 52 % 2 ^ 11 = 2047) && decide (b % 2 ^ 52 ≠ 0)

/-- Reduction modulo `2 ^ 64`: the wraparound applied by every 64-bit
machine operation. -/
def wrap (n : Nat) : Nat := n % 2 ^ 64

/-- Modelled from the spec: the two recoverable VM error kinds, StackEmpty
and TypeMismatch (`vm.go` is not part of the sources; only its tests are). -/
inductive VMErr where
  | stackEmpty
  | typeMismatch
deriving DecidableEq, Repr

/-- Modelled from the spec: `Oadd` inserts a key into an object,
overwriting the entry if the key is already present. -/
def objInsert : List (List Nat × Value) → List Nat → Value → List (List Nat × Value)
  | [], k, v => [(k, v)]
  | (k2, v2) :: rest, k, v =>
    if k2 = k then (k, v) :: rest else (k2, v2) :: objInsert rest k v

/-- Go `<<` on a 64-bit pattern: shifting by 64 or more yields zero. -/
def shl64 (a b : Nat) : Nat := if 64 ≤ b then 0 else wrap (a * 2 ^ b)

/-- Arithmetic right shift of the two's-complement pattern `a` by `k`
bits (sign bit replicated), as Go's `>>` on `int64`. -/
def sar64 (a k : Nat) : Nat :=
  if 64 ≤ k then (if a < 2 ^ 63 then 0 else 2 ^ 64 - 1)
  else if a < 2 ^ 63 then a / 2 ^ k
  else 2 ^ 64 - 1 - ((2 ^ 64 - 1 - a) / 2 ^ k)

/-- Modelled from the spec: effect of `Isht` on the value pattern `a` and
shift pattern `b` — left shift for a nonnegative shift, arithmetic right
shift by the magnitude for a negative one. -/
def ishtOp (a b : Nat) : Nat :=
  if b < 2 ^ 63 then shl64 a b else sar64 a (2 ^ 64 - b)

/-- Modelled from the spec: `Feed` executes one op against the stack
(topmost element first in the list). Operand presence is checked before
operand kind, so a too-short stack always yields `stackEmpty` and a
present-but-wrong-kind operand yields `typeMismatch`; on failure the
stack is returned unchanged by the caller keeping its copy. -/
def feed : Op → List Value → Except VMErr (List Value)
  | .Inew, st => .ok (.vInt 0 :: st)
  | .Iinc, .vInt n :: rest => .ok (.vInt (wrap (n + 1)) :: rest)
  | .Iinc, _ :: _ => .error .typeMismatch
  | .Iinc, [] => .error .stackEmpty
  | .Ishl, .vInt n :: rest => .ok (.vInt (wrap (n * 2)) :: rest)
  | .Ishl, _ :: _ => .error .typeMismatch
  | .Ishl, [] => .error .stackEmpty
  | .Iadd, .vInt b :: .vInt a :: rest => .ok (.vInt (wrap (a + b)) :: rest)
  | .Iadd, _ :: _ :: _ => .error .typeMismatch
  | .Iadd, _ => .error .stackEmpty
  | .Ineg, .vInt n :: rest => .ok (.vInt (wrap (2 ^ 64 - n)) :: rest)
  | .Ineg, _ :: _ => .error .typeMismatch
  | .Ineg, [] => .error .stackEmpty
  | .Isht, .vInt b :: .vInt a :: rest => .ok (.vInt (ishtOp a b) :: rest)
  | .Isht, _ :: _ :: _ => .error .typeMismatch
  | .Isht, _ => .error .stackEmpty
  | .Itou, .vInt n :: rest => .ok (.vUint n :: rest)
  | .Itou, _ :: _ => .error .typeMismatch
  | .Itou, [] => .error .stackEmpty
  | .Itof, .vInt n :: rest => .ok (.vFloat n :: rest)
  | .Itof, _ :: _ => .error .typeMismatch
  | .Itof, [] => .error .stackEmpty
  | .Fneg, .vFloat b :: rest =>
    .ok (.vFloat (if b < 2 ^ 63 then b + 2 ^ 63 else b - 2 ^ 63) :: rest)
  | .Fneg, _ :: _ => .error .typeMismatch
  | .Fneg, [] => .error .stackEmpty
  | .Fnan, st => .ok (.vFloat nanBits :: st)
  | .Finf, st => .ok (.vFloat posInfBits :: st)
  | .Snew, st => .ok (.vString [] :: st)
  | .Sadd, .vInt c :: .vString s :: rest => .ok (.vString (s ++ [c % 256]) :: rest)
  | .Sadd, _ :: _ :: _ => .error .typeMismatch
  | .Sadd, _ => .error .stackEmpty
  | .Onew, st => .ok (.vObject [] :: st)
  | .Oadd, v :: .vString k :: .vObject o :: rest => .ok (.vObject (objInsert o k v) :: rest)
  | .Oadd, _ :: _ :: _ :: _ => .error .typeMismatch
  | .Oadd, _ => .error .stackEmpty
  | .Anew, st => .ok (.vArray [] :: st)
  | .Aadd, v :: .vArray a :: rest => .ok (.vArray (a ++ [v]) :: rest)
  | .Aadd, _ :: _ :: _ => .error .typeMismatch
  | .Aadd, _ => .error .stackEmpty
  | .Bnew, st => .ok (.vBool false :: st)
  | .Bneg, .vBool b :: rest => .ok (.vBool (!b) :: rest)
  | .Bneg, _ :: _ => .error .typeMismatch
  | .Bneg, [] => .error .stackEmpty
  | .Nnew, st => .ok (.vNil :: st)

/-- Modelled from the spec: `FeedMulti` executes ops left to right and
stops at the first error, keeping prior mutations. -/
def feedMulti : List Op → List Value → Except VMErr (List Value)
  | [], st => .ok st
  | op :: rest, st =>
    match feed op st with
    | .ok st2 => feedMulti rest st2
    | .error e => .error e

/-- Modelled from the spec: `Top` returns the top of the stack without
removing it and fails with StackEmpty on an empty stack. -/
def vmTop : List Value → Except VMErr Value
  | [] => .error .stackEmpty
  | v :: _ => .ok v

/-- Number of operands each op pops, per the spec's per-op table. -/
def arity : Op → Nat
  | .Iinc | .Ishl | .Ineg | .Itou | .Itof | .Fneg | .Bneg => 1
  | .Iadd | .Isht | .Sadd | .Aadd => 2
  | .Oadd => 3
  | _ => 0

/-- An op sink, indexed by call number: `s i = some e` means the i-th
`Write` call is rejected with error `e`, `s i = none` means it succeeds.
The error type `E` is abstract, mirroring Go's opaque `error` values. -/
def Sink (E : Type) : Type := Nat → Option E

/-- Observable state of a sink during a dump: how many `Write` calls were
made and which ops were accepted, in order. -/
structure DState where
  calls : Nat
  written : List Op
deriving DecidableEq, Repr

/-- Result of `Dump` and its helpers: either success (`none`) or the
error that aborted it — a sink error propagated unchanged, or the
`unknown kind` panic of `Dump`'s default branch. -/
inductive DErr (E : Type) where
  | sink (e : E)
  | unknownKind (k : Int)

/-- One `d.w.Write(op)` call: consult the sink; on success the op is
appended to the written sequence, on failure nothing is written and the
sink's error is returned unchanged. -/
def wwrite {E : Type} (s : Sink E) (op : Op) (st : DState) : DState × Option (DErr E) :=
  match s st.calls with
  | some e => (⟨st.calls + 1, st.written⟩, some (.sink e))
  | none => (⟨st.calls + 1, st.written ++ [op]⟩, none)

/-- Sequencing with early exit, the `if err != nil { return err }`
pattern threading the sink state. -/
def andThen {E : Type} (r : DState × Option (DErr E)) (f : DState → DState × Option (DErr E)) :
    DState × Option (DErr E) :=
  match r with
  | (st, none) => f st
  | (st, some e) => (st, some e)

/-- Writing a whole list of ops to the sink, one `wwrite` at a time. -/
def writeAll {E : Type} (s : Sink E) : List Op → DState → DState × Option (DErr E)
  | [], st => (st, none)
  | op :: rest, st => andThen (wwrite s op st) (writeAll s rest)

/-- Index of the highest set bit of `n` (0 for `n = 0`), computed with
enough fuel; `hiBit 64 n` models `63 - bits.LeadingZeros64(n)` from
`dumpInt` for `n < 2 ^ 64`. -/
def hiBit : Nat → Nat → Nat
  | 0, _ => 0
  | f + 1, n => if 2 ≤ n then hiBit f (n / 2) + 1 else 0

/-- The `msb` computed by `dumpInt`. -/
def msb64 (n : Nat) : Nat := hiBit 64 n

/-- The loop of `dumpInt`: for bit index `i-1` down to `0`, write `Ishl`,
then write `Iinc` when that bit of `n` is set. -/
def dumpIntBits {E : Type} (s : Sink E) (n : Nat) : Nat → DState → DState × Option (DErr E)
  | 0, st => (st, none)
  | i + 1, st =>
    andThen (wwrite s .Ishl st) fun st2 =>
      andThen (if n.testBit i then wwrite s .Iinc st2 else (st2, none)) (dumpIntBits s n i)

/-- Embedding of `dumpInt`: write `Inew`; if `n` is zero stop; otherwise
write `Iinc` for the most significant bit and run the loop from
`msb - 1` down to `0`. -/
def dumpInt {E : Type} (s : Sink E) (n : Nat) (st : DState) : DState × Option (DErr E) :=
  andThen (wwrite s .Inew st) fun st2 =>
    if n = 0 then (st2, none)
    else andThen (wwrite s .Iinc st2) (dumpIntBits s n (msb64 n))

/-- Embedding of `dumpUint`: `dumpInt` then `Itou`. -/
def dumpUint {E : Type} (s : Sink E) (n : Nat) (st : DState) : DState × Option (DErr E) :=
  andThen (dumpInt s n st) fun st2 => wwrite s .Itou st2

/-- Embedding of `dumpFloat` on the bit pattern `b`: NaN returns after
`Fnan`, `+Inf` after `Finf`, but the `-Inf` branch of the source does not
return, so after `Finf`/`Fneg` control falls through to
`dumpInt`/`Itof` like the finite case. -/
def dumpFloat {E : Type} (s : Sink E) (b : Nat) (st : DState) : DState × Option (DErr E) :=
  if isNaNBits b then wwrite s .Fnan st
  else if b = posInfBits then wwrite s .Finf st
  else
    andThen
      (if b = negInfBits then
        andThen (wwrite s .Finf st) fun st2 => wwrite s .Fneg st2
      else (st, none))
      fun st3 => andThen (dumpInt s b st3) fun st4 => wwrite s .Itof st4

/-- The per-byte loop of `dumpString`: `dumpInt c` then `Sadd` for each
byte in order. -/
def dumpStringBody {E : Type} (s : Sink E) : List Nat → DState → DState × Option (DErr E)
  | [], st => (st, none)
  | c :: rest, st =>
    andThen (dumpInt s c st) fun st2 =>
      andThen (wwrite s .Sadd st2) (dumpStringBody s rest)

/-- Embedding of `dumpString`: `Snew`, then the per-byte loop. -/
def dumpString {E : Type} (s : Sink E) (bs : List Nat) (st : DState) : DState × Option (DErr E) :=
  andThen (wwrite s .Snew st) (dumpStringBody s bs)

/-- Embedding of `dumpBool`: `Bnew`, then `Bneg` when the value is true. -/
def dumpBool {E : Type} (s : Sink E) (b : Bool) (st : DState) : DState × Option (DErr E) :=
  andThen (wwrite s .Bnew st) fun st2 => if b then wwrite s .Bneg st2 else (st2, none)

/-- Embedding of `dumpNil`: a single `Nnew`. -/
def dumpNil {E : Type} (s : Sink E) (st : DState) : DState × Option (DErr E) :=
  wwrite s .Nnew st

mutual

/-- Embedding of `Dump`: dispatch on the value's kind; the default branch
(`vUnknown`) is the `unknown kind` panic. Object iteration follows the
association-list order, which stands for Go's map iteration order. -/
def dump {E : Type} (s : Sink E) : Value → DState → DState × Option (DErr E)
  | .vInt b, st => dumpInt s b st
  | .vUint b, st => dumpUint s b st
  | .vFloat b, st => dumpFloat s b st
  | .vString bs, st => dumpString s bs st
  | .vObject es, st => andThen (wwrite s .Onew st) (dumpObjectBody s es)
  | .vArray xs, st => andThen (wwrite s .Anew st) (dumpArrayBody s xs)
  | .vBool b, st => dumpBool s b st
  | .vNil, st => dumpNil s st
  | .vUnknown k, st => (st, some (.unknownKind k))

/-- The entry loop of `dumpObject`: `dumpString key`, `Dump value`,
`Oadd` for each entry. -/
def dumpObjectBody {E : Type} (s : Sink E) :
    List (List Nat × Value) → DState → DState × Option (DErr E)
  | [], st => (st, none)
  | (k, v) :: rest, st =>
    andThen (dumpString s k st) fun st2 =>
      andThen (dump s v st2) fun st3 =>
        andThen (wwrite s .Oadd st3) (dumpObjectBody s rest)

/-- The element loop of `dumpArray`: `Dump element`, `Aadd` for each
element in order. -/
def dumpArrayBody {E : Type} (s : Sink E) : List Value → DState → DState × Option (DErr E)
  | [], st => (st, none)
  | v :: rest, st =>
    andThen (dump s v st) fun st2 =>
      andThen (wwrite s .Aadd st2) (dumpArrayBody s rest)

end

/-- A sink that accepts every write. -/
def okSink : Sink Unit := fun _ => none

/-- Pure description of the op sequence `dumpInt`'s loop emits for the
bottom `i` bits of `n`. -/
def intBits (n : Nat) : Nat → List Op
  | 0 => []
  | i + 1 => .Ishl :: ((if n.testBit i then [.Iinc] else []) ++ intBits n i)

/-- Pure description of the op sequence `dumpInt n` emits. -/
def intOps (n : Nat) : List Op :=
  if n = 0 then [.Inew] else .Inew :: .Iinc :: intBits n (msb64 n)

/-- Pure description of the per-byte ops of `dumpString`. -/
def strOps : List Nat → List Op
  | [] => []
  | c :: rest => intOps c ++ [.Sadd] ++ strOps rest

/-- Pure description of the op sequence `dumpFloat b` emits (including
the fall-through of the `-Inf` branch). -/
def floatOps (b : Nat) : List Op :=
  if isNaNBits b then [.Fnan]
  else if b = posInfBits then [.Finf]
  else if b = negInfBits then .Finf :: .Fneg :: (intOps b ++ [.Itof])
  else intOps b ++ [.Itof]

mutual

/-- Pure description of the full op sequence `Dump v` emits (empty for
the undefined-kind case, which `Dump` turns into a panic instead). -/
def opsOf : Value → List Op
  | .vInt b => intOps b
  | .vUint b => intOps b ++ [.Itou]
  | .vFloat b => floatOps b
  | .vString bs => .Snew :: strOps bs
  | .vObject es => .Onew :: objOps es
  | .vArray xs => .Anew :: arrOps xs
  | .vBool b => if b then [.Bnew, .Bneg] else [.Bnew]
  | .vNil => [.Nnew]
  | .vUnknown _ => []

/-- Pure description of the ops emitted for an object's entries. -/
def objOps : List (List Nat × Value) → List Op
  | [] => []
  | (k, v) :: rest => (.Snew :: strOps k) ++ opsOf v ++ [.Oadd] ++ objOps rest

/-- Pure description of the ops emitted for an array's elements. -/
def arrOps : List Value → List Op
  | [] => []
  | v :: rest => opsOf v ++ [.Aadd] ++ arrOps rest

end

/-- Membership of a key in an object's association list. -/
def keyMem (k : List Nat) : List (List Nat × Value) → Bool
  | [] => false
  | (k2, _) :: rest => decide (k2 = k) || keyMem k rest

/-- Distinctness of the keys of an association list — the Go map
invariant. -/
def keysDistinct : List (List Nat × Value) → Bool
  | [] => true
  | (k, _) :: rest => !keyMem k rest && keysDistinct rest

mutual

/-- Every kind tag in the value tree is one of the eight defined kinds
(no `vUnknown` anywhere). -/
def wellKinded : Value → Bool
  | .vObject es => wkEntries es
  | .vArray xs => wkList xs
  | .vUnknown _ => false
  | _ => true

/-- Restriction of `wellKinded` to the entries of an object. -/
def wkEntries : List (List Nat × Value) → Bool
  | [] => true
  | (_, v) :: rest => wellKinded v && wkEntries rest

/-- Restriction of `wellKinded` to the elements of an array. -/
def wkList : List Value → Bool
  | [] => true
  | v :: rest => wellKinded v && wkList rest

end

mutual

/-- Well-formedness: the ranges Go's types guarantee — numeric patterns
below `2 ^ 64`, string bytes below 256, object keys distinct with valid
bytes — and no undefined kind anywhere. -/
def wf : Value → Bool
  | .vInt b => decide (b < 2 ^ 64)
  | .vUint b => decide (b < 2 ^ 64)
  | .vFloat b => decide (b < 2 ^ 64)
  | .vString bs => bs.all fun c => decide (c < 256)
  | .vObject es => keysDistinct es && wfEntries es
  | .vArray xs => wfList xs
  | .vBool _ => true
  | .vNil => true
  | .vUnknown _ => false

/-- Restriction of `wf` to the entries of an object, including key byte ranges. -/
def wfEntries : List (List Nat × Value) → Bool
  | [] => true
  | (k, v) :: rest => (k.all fun c => decide (c < 256)) && wf v && wfEntries rest

/-- Restriction of `wf` to the elements of an array. -/
def wfList : List Value → Bool
  | [] => true
  | v :: rest => wf v && wfList rest

end

mutual

/-- Every NaN float payload in the tree carries the canonical quiet NaN
pattern (the one `math.NaN()` produces, which is all `Fnan` can rebuild). -/
def canonNaN : Value → Bool
  | .vFloat b => !isNaNBits b || decide (b = nanBits)
  | .vObject es => canonNaNEntries es
  | .vArray xs => canonNaNList xs
  | _ => true

/-- Restriction of `canonNaN` to object entries. -/
def canonNaNEntries : List (List Nat × Value) → Bool
  | [] => true
  | (_, v) :: rest => canonNaN v && canonNaNEntries rest

/-- Restriction of `canonNaN` to array elements. -/
def canonNaNList : List Value → Bool
  | [] => true
  | v :: rest => canonNaN v && canonNaNList rest

end

mutual

/-- No float payload anywhere in the tree is `-Infinity`. -/
def noNegInf : Value → Bool
  | .vFloat b => decide (b ≠ negInfBits)
  | .vObject es => noNegInfEntries es
  | .vArray xs => noNegInfList xs
  | _ => true

/-- Restriction of `noNegInf` to object entries. -/
def noNegInfEntries : List (List Nat × Value) → Bool
  | [] => true
  | (_, v) :: rest => noNegInf v && noNegInfEntries rest

/-- Restriction of `noNegInf` to array elements. -/
def noNegInfList : List Value → Bool
  | [] => true
  | v :: rest => noNegInf v && noNegInfList rest

end

/-- No `-Infinity` occurs strictly inside a container: the root itself
may be `-Infinity`, but object values and array elements (recursively)
may not. -/
def nestedOk : Value → Bool
  | .vFloat _ => true
  | .vObject es => noNegInfEntries es
  | .vArray xs => noNegInfList xs
  | v => noNegInf v

/-- Errors of the native-value adapter (package `any`), each a Go panic
modelled as an error: the `can't convert ... to *vm.Value` panic of
`reflectValueToValue` (`unsupportedType`), the `invalid kind` panic of
`FromValue`, and the panic the reflect library itself raises when
`Value.IsNil` is called on a value of a non-nilable kind
(`isNilPanic`). -/
inductive ConvErr where
  | unsupportedType
  | invalidKind (k : Int)
  | isNilPanic
deriving DecidableEq, Repr

/-- The universe of Go `interface\x7b\x7d` inputs that `ToValue` distinguishes.
`nNil` is the untyped nil interface. `nBytes` is a value of exact type
`[]byte` (caught by `ToValue`'s type switch); `nBytesNamed` is a named
type of byte-slice kind, which only the reflective fallback sees.
`nMap` is a string-keyed map with interface element type, `nArr` a
generic (non-byte) slice such as `[]interface\x7b\x7d`, and `nOther` any other
nilable reference (pointer, channel, function) matching no rule. The
`isNil` flags record typed-nil references. `nNonNilable` is a value of a
non-nilable kind matching no rule — a struct (named in the source's own
ordering comment), a fixed-size array, a complex number, or a uintptr —
on which `reflect.Value.IsNil` panics. -/
inductive Native where
  | nNil
  | nBool (b : Bool)
  | nInt (bits : Nat)
  | nUint (bits : Nat)
  | nFloat (bits : Nat)
  | nString (s : List Nat)
  | nBytes (isNil : Bool) (s : List Nat)
  | nBytesNamed (isNil : Bool) (s : List Nat)
  | nMap (isNil : Bool) (entries : List (List Nat × Native))
  | nArr (isNil : Bool) (xs : List Native)
  | nOther (isNil : Bool)
  | nNonNilable
deriving Repr

/-- The reflective view (`reflect.Value`) received by
`reflectValueToValue`: its kind plus the payload the conversion reads.
`rIface` is an interface-kind value, as produced by iterating a map with
interface element type — its dynamic content is a `Native`.
`rNonNilable` is a value of a non-nilable kind matching no rule (struct,
fixed-size array, complex, uintptr). -/
inductive RVal where
  | rInt (bits : Nat)
  | rUint (bits : Nat)
  | rFloat (bits : Nat)
  | rBool (b : Bool)
  | rString (s : List Nat)
  | rBytes (isNil : Bool) (s : List Nat)
  | rMap (isNil : Bool) (entries : List (List Nat × Native))
  | rSlice (isNil : Bool) (xs : List Native)
  | rIface (content : Native)
  | rOther (isNil : Bool)
  | rNonNilable
deriving Repr

/-- Embedding of `v.IsNil()` on the reflective view: the nil-ness of a
nilable reference (an interface-kind value is nil exactly when it holds
the nil interface), and the panic `reflect.Value.IsNil` raises on every
non-nilable kind — structs, fixed-size arrays, complex numbers, uintptr
(`rNonNilable`), as well as the numeric, bool and string kinds, which
the family checks of `reflectValueToValue` keep from ever reaching the
call. -/
def rIsNil : RVal → Except ConvErr Bool
  | .rBytes b _ => .ok b
  | .rMap b _ => .ok b
  | .rSlice b _ => .ok b
  | .rOther b => .ok b
  | .rIface .nNil => .ok true
  | .rIface _ => .ok false
  | _ => .error .isNilPanic

mutual

/-- Embedding of `reflectValueToValue`: the if-chain of the source — the
int/uint/float/bool/string kind families first, then the `IsNil` check,
then byte slices, then string-keyed maps, and otherwise the
`can't convert` panic. An interface-kind value (`rIface`) matches none of
the kind-family predicates, so a non-nil one reaches the panic; a value
of a non-nilable kind makes the `IsNil` call itself panic before the
`can't convert` panic can be reached. -/
def reflectValueToValue : RVal → Except ConvErr Value
  | .rInt b => .ok (.vInt b)
  | .rUint b => .ok (.vUint b)
  | .rFloat b => .ok (.vFloat b)
  | .rBool b => .ok (.vBool b)
  | .rString s => .ok (.vString s)
  | v =>
    match rIsNil v with
    | .error e => .error e
    | .ok true => .ok .vNil
    | .ok false =>
      match v with
      | .rBytes _ s => .ok (.vString s)
      | .rMap _ es =>
        match reflectMapToValue es with
        | .ok ves => .ok (.vObject ves)
        | .error e => .error e
      | _ => .error .unsupportedType

/-- Embedding of `reflectMapToValue`'s iteration: each entry value coming
out of `MapRange` is an interface-kind `reflect.Value`, so it is
converted through `reflectValueToValue` applied to an `rIface` view. -/
def reflectMapToValue : List (List Nat × Native) → Except ConvErr (List (List Nat × Value))
  | [] => .ok []
  | (k, n) :: rest =>
    match reflectValueToValue (.rIface n) with
    | .ok v =>
      match reflectMapToValue rest with
      | .ok vs => .ok ((k, v) :: vs)
      | .error e => .error e
    | .error e => .error e

end

/-- Embedding of `ToValue`: the nil-interface check, the type switch over
the primitive types, exact `[]byte` and `string`, and then the reflective
fallback for everything else. -/
def toValue : Native → Except ConvErr Value
  | .nNil => .ok .vNil
  | .nBool b => .ok (.vBool b)
  | .nInt b => .ok (.vInt b)
  | .nUint b => .ok (.vUint b)
  | .nBytes _ s => .ok (.vString s)
  | .nString s => .ok (.vString s)
  | .nFloat b => .ok (.vFloat b)
  | .nBytesNamed isnil s => reflectValueToValue (.rBytes isnil s)
  | .nMap isnil es => reflectValueToValue (.rMap isnil es)
  | .nArr isnil xs => reflectValueToValue (.rSlice isnil xs)
  | .nOther isnil => reflectValueToValue (.rOther isnil)
  | .nNonNilable => reflectValueToValue .rNonNilable

mutual

/-- Embedding of `FromValue`: objects become string-keyed maps with
interface element type, arrays become (non-nil) `[]interface\x7b\x7d` values,
and an undefined kind is the `invalid kind` panic. -/
def fromValue : Value → Except ConvErr Native
  | .vInt b => .ok (.nInt b)
  | .vUint b => .ok (.nUint b)
  | .vFloat b => .ok (.nFloat b)
  | .vString s => .ok (.nString s)
  | .vObject es =>
    match fromEntries es with
    | .ok ns => .ok (.nMap false ns)
    | .error e => .error e
  | .vArray xs =>
    match fromList xs with
    | .ok ns => .ok (.nArr false ns)
    | .error e => .error e
  | .vBool b => .ok (.nBool b)
  | .vNil => .ok .nNil
  | .vUnknown k => .error (.invalidKind k)

/-- Conversion of object entries by `FromValue`. -/
def fromEntries : List (List Nat × Value) → Except ConvErr (List (List Nat × Native))
  | [] => .ok []
  | (k, v) :: rest =>
    match fromValue v with
    | .ok n =>
      match fromEntries rest with
      | .ok ns => .ok ((k, n) :: ns)
      | .error e => .error e
    | .error e => .error e

/-- Conversion of array elements by `FromValue`. -/
def fromList : List Value → Except ConvErr (List Native)
  | [] => .ok []
  | v :: rest =>
    match fromValue v with
    | .ok n =>
      match fromList rest with
      | .ok ns => .ok (n :: ns)
      | .error e => .error e
    | .error e => .error e

end

/-- A native input matching none of the defined conversion rules: a
non-nil generic slice, a non-nil unconvertible nilable reference, or a
value of a non-nilable kind with no rule. -/
def unmatchedNative : Native → Bool
  | .nArr false _ => true
  | .nOther false => true
  | .nNonNilable => true
  | _ => false

/-- A concrete well-formed value used to witness the round-trip theorem:
an object holding one key whose value is an array of an integer and a
boolean. -/
def sampleValue : Value := .vObject [([104, 105], .vArray [.vInt 5, .vBool true])]

/-- A concrete sink that accepts the first write and rejects the second
with error 42. -/
def failSink : Sink Nat := fun j => if j = 1 then some 42 else none

theorem andThen_assoc {E : Type} (r : DState × Option (DErr E))
    (f g : DState → DState × Option (DErr E)) :
    andThen (andThen r f) g = andThen r fun st => andThen (f st) g := by
  rcases r with ⟨st, e⟩
  cases e <;> rfl

theorem andThen_none {E : Type} (r : DState × Option (DErr E)) :
    andThen r (fun st => (st, none)) = r := by
  rcases r with ⟨st, e⟩
  cases e <;> rfl

theorem writeAll_single {E : Type} (s : Sink E) (op : Op) :
    writeAll s [op] = wwrite s op := by
  funext st
  show andThen (wwrite s op st) (writeAll s []) = wwrite s op st
  exact andThen_none _

theorem writeAll_append {E : Type} (s : Sink E) (l1 l2 : List Op) (st : DState) :
    writeAll s (l1 ++ l2) st = andThen (writeAll s l1 st) (writeAll s l2) := by
  induction l1 generalizing st with
  | nil => rfl
  | cons op rest ih =>
    show writeAll s (op :: (rest ++ l2)) st = _
    rw [writeAll, writeAll, andThen_assoc]
    exact congrArg _ (funext fun st2 => ih st2)

theorem writeAll_ok {E : Type} (s : Sink E) (l : List Op) (st : DState)
    (h : ∀ j, j < l.length → s (st.calls + j) = none) :
    writeAll s l st = (⟨st.calls + l.length, st.written ++ l⟩, none) := by
  induction l generalizing st with
  | nil => simp [writeAll]
  | cons op rest ih =>
    have h0 : s st.calls = none := by simpa using h 0 (by simp)
    rw [writeAll, wwrite, h0]
    show writeAll s rest ⟨st.calls + 1, st.written ++ [op]⟩ = _
    rw [ih]
    · simp
      omega
    · intro j hj
      simpa [Nat.add_assoc, Nat.add_comm 1 j] using h (j + 1) (by simpa using hj)

theorem writeAll_fail {E : Type} (s : Sink E) (l : List Op) (st : DState) (i : Nat) (e : E)
    (hlen : i < l.length) (hpre : ∀ j, j < i → s (st.calls + j) = none)
    (hf : s (st.calls + i) = some e) :
    writeAll s l st = (⟨st.calls + i + 1, st.written ++ l.take i⟩, some (.sink e)) := by
  induction l generalizing st i with
  | nil => simp at hlen
  | cons op rest ih =>
    cases i with
    | zero =>
      have hf0 : s st.calls = some e := by simpa using hf
      rw [writeAll, wwrite, hf0]
      simp [andThen]
    | succ i2 =>
      have h0 : s st.calls = none := by simpa using hpre 0 (by omega)
      rw [writeAll, wwrite, h0]
      show writeAll s rest ⟨st.calls + 1, st.written ++ [op]⟩ = _
      have hpre2 : ∀ j, j < i2 → s (st.calls + 1 + j) = none := by
        intro j hj
        have h3 := hpre (j + 1) (by omega)
        have h4 : st.calls + (j + 1) = st.calls + 1 + j := by omega
        rw [h4] at h3
        exact h3
      have hf2 : s (st.calls + 1 + i2) = some e := by
        have h4 : st.calls + 1 + i2 = st.calls + (i2 + 1) := by omega
        rw [h4]
        exact hf
      rw [ih ⟨st.calls + 1, st.written ++ [op]⟩ i2 (by simpa using Nat.lt_of_succ_lt_succ hlen)
        hpre2 hf2]
      simp [List.take_succ_cons, List.append_assoc]
      omega

theorem writeAll_err {E : Type} (s : Sink E) (l : List Op) (st : DState) :
    (writeAll s l st).2 = none ∨ ∃ e, (writeAll s l st).2 = some (DErr.sink e) := by
  induction l generalizing st with
  | nil => left; rfl
  | cons op rest ih =>
    rw [writeAll, wwrite]
    cases hs : s st.calls with
    | none => exact ih _
    | some e => right; exact ⟨e, rfl⟩

theorem dumpIntBits_eq {E : Type} (s : Sink E) (n : Nat) (i : Nat) :
    dumpIntBits s n i = writeAll s (intBits n i) := by
  induction i with
  | zero => rfl
  | succ i2 ih =>
    funext st
    rw [dumpIntBits, ih]
    cases htb : n.testBit i2 <;> simp only [intBits, htb] <;> rfl

theorem dumpInt_eq {E : Type} (s : Sink E) (n : Nat) (st : DState) :
    dumpInt s n st = writeAll s (intOps n) st := by
  by_cases hn : n = 0
  · subst hn; rfl
  · rw [dumpInt, dumpIntBits_eq]
    simp only [intOps, if_neg hn]
    rfl

theorem dumpUint_eq {E : Type} (s : Sink E) (n : Nat) (st : DState) :
    dumpUint s n st = writeAll s (intOps n ++ [.Itou]) st := by
  rw [dumpUint, writeAll_append, dumpInt_eq, writeAll_single]

theorem dumpFloat_eq {E : Type} (s : Sink E) (b : Nat) (st : DState) :
    dumpFloat s b st = writeAll s (floatOps b) st := by
  rw [dumpFloat, floatOps]
  cases h1 : isNaNBits b with
  | true => simp only [if_true]; rw [writeAll_single]
  | false =>
    simp only [Bool.false_eq_true, if_false]
    by_cases h2 : b = posInfBits
    · simp only [if_pos h2]; rw [writeAll_single]
    · simp only [if_neg h2]
      by_cases h3 : b = negInfBits
      · simp only [if_pos h3, andThen_assoc]
        show andThen (wwrite s .Finf st)
            (fun st2 => andThen (wwrite s .Fneg st2)
              fun st3 => andThen (dumpInt s b st3) fun st4 => wwrite s .Itof st4)
          = andThen (wwrite s .Finf st)
            (fun st2 => andThen (wwrite s .Fneg st2) (writeAll s (intOps b ++ [.Itof])))
        refine congrArg _ (funext fun st2 => ?_)
        refine congrArg _ (funext fun st3 => ?_)
        rw [writeAll_append, dumpInt_eq, writeAll_single]
      · simp only [if_neg h3]
        simp only [dumpInt_eq, writeAll_append, writeAll_single, andThen]

theorem dumpStringBody_eq {E : Type} (s : Sink E) (bs : List Nat) :
    dumpStringBody s bs = writeAll s (strOps bs) := by
  induction bs with
  | nil => rfl
  | cons c rest ih =>
    funext st
    rw [dumpStringBody, ih]
    simp only [strOps, dumpInt_eq, writeAll_append, writeAll_single, andThen_assoc]

theorem dumpString_eq {E : Type} (s : Sink E) (bs : List Nat) (st : DState) :
    dumpString s bs st = writeAll s (.Snew :: strOps bs) st := by
  rw [dumpString, dumpStringBody_eq]
  rfl

theorem dumpBool_eq {E : Type} (s : Sink E) (b : Bool) (st : DState) :
    dumpBool s b st = writeAll s (if b then [.Bnew, .Bneg] else [.Bnew]) st := by
  cases b with
  | false => rfl
  | true =>
    show andThen (wwrite s .Bnew st) (fun st2 => wwrite s .Bneg st2)
      = andThen (wwrite s .Bnew st) (writeAll s [.Bneg])
    rw [writeAll_single]

mutual

theorem dump_eq {E : Type} (s : Sink E) (v : Value) (h : wellKinded v = true) :
    dump s v = writeAll s (opsOf v) := by
  cases v with
  | vInt b => funext st; exact dumpInt_eq s b st
  | vUint b => funext st; exact dumpUint_eq s b st
  | vFloat b => funext st; exact dumpFloat_eq s b st
  | vString bs => funext st; exact dumpString_eq s bs st
  | vObject es =>
    funext st
    show andThen (wwrite s .Onew st) (dumpObjectBody s es) = writeAll s (.Onew :: objOps es) st
    rw [dumpObjectBody_eq s es h]
    rfl
  | vArray xs =>
    funext st
    show andThen (wwrite s .Anew st) (dumpArrayBody s xs) = writeAll s (.Anew :: arrOps xs) st
    rw [dumpArrayBody_eq s xs h]
    rfl
  | vBool b => funext st; exact dumpBool_eq s b st
  | vNil => funext st; rw [show opsOf .vNil = [Op.Nnew] from rfl, writeAll_single]; rfl
  | vUnknown k => simp [wellKinded] at h

theorem dumpObjectBody_eq {E : Type} (s : Sink E) (es : List (List Nat × Value))
    (h : wkEntries es = true) :
    dumpObjectBody s es = writeAll s (objOps es) := by
  cases es with
  | nil => rfl
  | cons kv rest =>
    rcases kv with ⟨k, v⟩
    rw [wkEntries, Bool.and_eq_true] at h
    funext st
    rw [dumpObjectBody, dump_eq s v h.1, dumpObjectBody_eq s rest h.2]
    simp only [objOps, dumpString_eq, writeAll_append, writeAll_single, andThen_assoc]

theorem dumpArrayBody_eq {E : Type} (s : Sink E) (xs : List Value)
    (h : wkList xs = true) :
    dumpArrayBody s xs = writeAll s (arrOps xs) := by
  cases xs with
  | nil => rfl
  | cons v rest =>
    rw [wkList, Bool.and_eq_true] at h
    funext st
    rw [dumpArrayBody, dump_eq s v h.1, dumpArrayBody_eq s rest h.2]
    simp only [arrOps, writeAll_append, writeAll_single, andThen_assoc]

end

theorem feedMulti_append_ok (l1 l2 : List Op) (st st2 : List Value)
    (h : feedMulti l1 st = .ok st2) :
    feedMulti (l1 ++ l2) st = feedMulti l2 st2 := by
  induction l1 generalizing st with
  | nil =>
    have h2 : st = st2 := by simpa [feedMulti] using h
    rw [List.nil_append, h2]
  | cons op rest ih =>
    rw [List.cons_append]
    cases hf : feed op st with
    | ok stm =>
      rw [feedMulti, hf] at h
      rw [feedMulti, hf]
      exact ih _ h
    | error e =>
      rw [feedMulti, hf] at h
      exact absurd h (by simp)

theorem hiBit_spec : ∀ f n, 0 < n → n < 2 ^ f →
    2 ^ hiBit f n ≤ n ∧ n < 2 ^ (hiBit f n + 1) := by
  intro f
  induction f with
  | zero =>
    intro n h0 h1
    simp only [pow_zero] at h1
    omega
  | succ f2 ih =>
    intro n h0 h1
    rw [hiBit]
    by_cases h2 : 2 ≤ n
    · simp only [if_pos h2]
      have hpos : 0 < n / 2 := Nat.div_pos h2 (by norm_num)
      have hp : n < 2 ^ f2 * 2 := by rw [← pow_succ]; exact h1
      have hlt : n / 2 < 2 ^ f2 := by omega
      obtain ⟨ha, hb⟩ := ih (n / 2) hpos hlt
      constructor
      · rw [pow_succ]
        have h3 : 2 ^ hiBit f2 (n / 2) * 2 ≤ n / 2 * 2 := Nat.mul_le_mul_right 2 ha
        omega
      · rw [pow_succ]
        omega
    · simp only [if_neg h2]
      have h3 : n = 1 := by omega
      subst h3
      norm_num

theorem msb64_div (n : Nat) (h0 : 0 < n) (hn : n < 2 ^ 64) : n / 2 ^ msb64 n = 1 := by
  obtain ⟨ha, hb⟩ := hiBit_spec 64 n h0 hn
  have h1 : 1 ≤ n / 2 ^ msb64 n := (Nat.one_le_div_iff (Nat.pos_pow_of_pos _ (by norm_num))).mpr ha
  have h2 : n / 2 ^ msb64 n < 2 := by
    rw [Nat.div_lt_iff_lt_mul (Nat.pos_pow_of_pos _ (by norm_num))]
    have h3 : n < 2 ^ msb64 n * 2 := by rw [← pow_succ]; exact hb
    omega
  omega

theorem intBits_feed (n : Nat) (hn : n < 2 ^ 64) :
    ∀ i st, feedMulti (intBits n i) (.vInt (n / 2 ^ i) :: st) = .ok (.vInt n :: st) := by
  intro i
  induction i with
  | zero =>
    intro st
    simp [intBits, feedMulti, Nat.div_one]
  | succ i2 ih =>
    intro st
    have hmd : n / 2 ^ i2 / 2 = n / 2 ^ (i2 + 1) := by
      rw [Nat.div_div_eq_div_mul, ← pow_succ]
    have hle : n / 2 ^ i2 ≤ n := Nat.div_le_self _ _
    have hdm : n / 2 ^ (i2 + 1) * 2 ≤ n / 2 ^ i2 := by
      rw [← hmd]
      exact Nat.div_mul_le_self _ _
    have hmod : 2 * (n / 2 ^ i2 / 2) + n / 2 ^ i2 % 2 = n / 2 ^ i2 := Nat.div_add_mod _ 2
    rw [intBits]
    cases htb : n.testBit i2 with
    | true =>
      have h1 : n / 2 ^ i2 % 2 = 1 := by
        simpa [Nat.testBit_to_div_mod] using htb
      show feedMulti ([.Iinc] ++ intBits n i2)
          (.vInt (wrap (n / 2 ^ (i2 + 1) * 2)) :: st) = .ok (.vInt n :: st)
      rw [show wrap (n / 2 ^ (i2 + 1) * 2) = n / 2 ^ (i2 + 1) * 2 from
        Nat.mod_eq_of_lt (by omega)]
      show feedMulti (intBits n i2)
          (.vInt (wrap (n / 2 ^ (i2 + 1) * 2 + 1)) :: st) = .ok (.vInt n :: st)
      rw [show wrap (n / 2 ^ (i2 + 1) * 2 + 1) = n / 2 ^ i2 from by
        unfold wrap; omega]
      exact ih st
    | false =>
      have h1 : n / 2 ^ i2 % 2 = 0 := by
        have h2 : ¬(n / 2 ^ i2 % 2 = 1) := by
          simpa [Nat.testBit_to_div_mod] using htb
        omega
      show feedMulti ([] ++ intBits n i2)
          (.vInt (wrap (n / 2 ^ (i2 + 1) * 2)) :: st) = .ok (.vInt n :: st)
      rw [show wrap (n / 2 ^ (i2 + 1) * 2) = n / 2 ^ i2 from by
        unfold wrap; omega]
      exact ih st

theorem pushInt (n : Nat) (hn : n < 2 ^ 64) (st : List Value) :
    feedMulti (intOps n) st = .ok (.vInt n :: st) := by
  by_cases h0 : n = 0
  · subst h0; rfl
  · rw [intOps, if_neg h0]
    show feedMulti (intBits n (msb64 n)) (.vInt (wrap (0 + 1)) :: st) = .ok (.vInt n :: st)
    rw [show wrap (0 + 1) = n / 2 ^ msb64 n from by
      rw [msb64_div n (Nat.pos_of_ne_zero h0) hn]; rfl]
    exact intBits_feed n hn (msb64 n) st

theorem strOps_feed (bs : List Nat) (hb : ∀ c ∈ bs, c < 256) :
    ∀ acc st, feedMulti (strOps bs) (.vString acc :: st) = .ok (.vString (acc ++ bs) :: st) := by
  induction bs with
  | nil => intro acc st; simp [strOps, feedMulti]
  | cons c rest ih =>
    intro acc st
    have hc : c < 256 := hb c (by simp)
    have hrest : ∀ x ∈ rest, x < 256 := fun x hx => hb x (by simp [hx])
    have step1 : feedMulti (intOps c ++ [.Sadd]) (.vString acc :: st)
        = .ok (.vString (acc ++ [c]) :: st) := by
      rw [feedMulti_append_ok _ _ _ _ (pushInt c (by omega) _)]
      show Except.ok (Value.vString (acc ++ [c % 256]) :: st) = _
      rw [Nat.mod_eq_of_lt hc]
    rw [strOps, feedMulti_append_ok _ _ _ _ step1, List.append_cons acc c rest]
    exact ih hrest (acc ++ [c]) st

theorem pushString (bs : List Nat) (hb : ∀ c ∈ bs, c < 256) (st : List Value) :
    feedMulti (.Snew :: strOps bs) st = .ok (.vString bs :: st) := by
  show feedMulti (strOps bs) (.vString [] :: st) = _
  simpa using strOps_feed bs hb [] st

theorem pushFloat (b : Nat) (hn : b < 2 ^ 64) (hcanon : isNaNBits b = true → b = nanBits)
    (hni : b ≠ negInfBits) (st : List Value) :
    feedMulti (floatOps b) st = .ok (.vFloat b :: st) := by
  rw [floatOps]
  cases h1 : isNaNBits b with
  | true =>
    simp only [if_true]
    rw [hcanon h1]
    rfl
  | false =>
    simp only [Bool.false_eq_true, if_false]
    by_cases h2 : b = posInfBits
    · simp only [if_pos h2]; subst h2; rfl
    · simp only [if_neg h2, if_neg hni]
      rw [feedMulti_append_ok _ _ _ _ (pushInt b hn st)]
      rfl

theorem objInsert_notMem (es : List (List Nat × Value)) (k : List Nat) (v : Value)
    (h : keyMem k es = false) : objInsert es k v = es ++ [(k, v)] := by
  induction es with
  | nil => rfl
  | cons kv rest ih =>
    rcases kv with ⟨k2, v2⟩
    simp only [keyMem, Bool.or_eq_false_iff, decide_eq_false_iff_not] at h
    rw [objInsert, if_neg h.1, ih h.2]
    exact (List.cons_append _ _ _).symm

theorem keyMem_append (k : List Nat) (l1 l2 : List (List Nat × Value)) :
    keyMem k (l1 ++ l2) = (keyMem k l1 || keyMem k l2) := by
  induction l1 with
  | nil => simp [keyMem]
  | cons kv rest ih =>
    rcases kv with ⟨k2, v2⟩
    simp [keyMem, ih, Bool.or_assoc]

theorem keysDistinct_middle (l1 : List (List Nat × Value)) (k : List Nat) (v : Value)
    (l2 : List (List Nat × Value)) (h : keysDistinct (l1 ++ (k, v) :: l2) = true) :
    keyMem k l1 = false := by
  induction l1 with
  | nil => rfl
  | cons kv rest ih =>
    rcases kv with ⟨k2, v2⟩
    rw [List.cons_append, keysDistinct, Bool.and_eq_true] at h
    have h1 : keyMem k2 (rest ++ (k, v) :: l2) = false := by
      have h2 := h.1
      simp only [Bool.not_eq_true'] at h2
      exact h2
    rw [keyMem_append, keyMem] at h1
    simp only [Bool.or_eq_false_iff, decide_eq_false_iff_not] at h1
    rw [keyMem]
    simp only [Bool.or_eq_false_iff, decide_eq_false_iff_not]
    exact ⟨fun he => h1.2.1 he.symm, ih h.2⟩

mutual

theorem pushOne (v : Value) (hwf : wf v = true) (hc : canonNaN v = true)
    (hni : noNegInf v = true) (st : List Value) :
    feedMulti (opsOf v) st = .ok (v :: st) := by
  cases v with
  | vInt b =>
    exact pushInt b (by simpa [wf] using hwf) st
  | vUint b =>
    show feedMulti (intOps b ++ [.Itou]) st = _
    rw [feedMulti_append_ok _ _ _ _ (pushInt b (by simpa [wf] using hwf) st)]
    rfl
  | vFloat b =>
    refine pushFloat b (by simpa [wf] using hwf) ?_ (by simpa [noNegInf] using hni) st
    intro ht
    simp only [canonNaN, ht, Bool.not_true, Bool.false_or, decide_eq_true_eq] at hc
    exact hc
  | vString bs =>
    refine pushString bs ?_ st
    simpa [wf, List.all_eq_true] using hwf
  | vObject es =>
    rw [wf, Bool.and_eq_true] at hwf
    show feedMulti (.Onew :: objOps es) st = .ok (.vObject es :: st)
    have h2 : feedMulti (objOps es) (.vObject [] :: st) = .ok (.vObject ([] ++ es) :: st) :=
      objOps_feed es [] st hwf.2 hc hni (by simpa using hwf.1)
    show feedMulti (objOps es) (.vObject [] :: st) = .ok (.vObject es :: st)
    simpa using h2
  | vArray xs =>
    show feedMulti (.Anew :: arrOps xs) st = .ok (.vArray xs :: st)
    have h2 : feedMulti (arrOps xs) (.vArray [] :: st) = .ok (.vArray ([] ++ xs) :: st) :=
      arrOps_feed xs [] st hwf hc hni
    show feedMulti (arrOps xs) (.vArray [] :: st) = .ok (.vArray xs :: st)
    simpa using h2
  | vBool b => cases b <;> rfl
  | vNil => rfl
  | vUnknown k => simp [wf] at hwf
termination_by sizeOf v
decreasing_by all_goals (simp_wf; subst_vars; (try simp) <;> omega)

theorem objOps_feed (es : List (List Nat × Value)) (acc : List (List Nat × Value))
    (st : List Value) (hwf : wfEntries es = true) (hc : canonNaNEntries es = true)
    (hni : noNegInfEntries es = true) (hkd : keysDistinct (acc ++ es) = true) :
    feedMulti (objOps es) (.vObject acc :: st) = .ok (.vObject (acc ++ es) :: st) := by
  cases es with
  | nil => simp [objOps, feedMulti]
  | cons kv rest =>
  cases kv with
  | mk k v =>
    rw [wfEntries, Bool.and_eq_true, Bool.and_eq_true] at hwf
    rw [canonNaNEntries, Bool.and_eq_true] at hc
    rw [noNegInfEntries, Bool.and_eq_true] at hni
    have hk : ∀ c ∈ k, c < 256 := by
      simpa [List.all_eq_true] using hwf.1.1
    have sAB : feedMulti ((.Snew :: strOps k) ++ opsOf v) (.vObject acc :: st)
        = .ok (v :: .vString k :: .vObject acc :: st) := by
      rw [feedMulti_append_ok _ _ _ _ (pushString k hk _)]
      exact pushOne v hwf.1.2 hc.1 hni.1 _
    have sABC : feedMulti (((.Snew :: strOps k) ++ opsOf v) ++ [.Oadd]) (.vObject acc :: st)
        = .ok (.vObject (acc ++ [(k, v)]) :: st) := by
      rw [feedMulti_append_ok _ _ _ _ sAB]
      show Except.ok (Value.vObject (objInsert acc k v) :: st) = _
      rw [objInsert_notMem acc k v (keysDistinct_middle acc k v rest hkd)]
    rw [objOps, feedMulti_append_ok _ _ _ _ sABC, List.append_cons acc (k, v) rest]
    refine objOps_feed rest (acc ++ [(k, v)]) st hwf.2 hc.2 hni.2 ?_
    rw [← List.append_cons]
    exact hkd
termination_by sizeOf es
decreasing_by all_goals (simp_wf; subst_vars; (try simp) <;> omega)

theorem arrOps_feed (xs : List Value) (acc : List Value) (st : List Value)
    (hwf : wfList xs = true) (hc : canonNaNList xs = true) (hni : noNegInfList xs = true) :
    feedMulti (arrOps xs) (.vArray acc :: st) = .ok (.vArray (acc ++ xs) :: st) := by
  cases xs with
  | nil => simp [arrOps, feedMulti]
  | cons v rest =>
    rw [wfList, Bool.and_eq_true] at hwf
    rw [canonNaNList, Bool.and_eq_true] at hc
    rw [noNegInfList, Bool.and_eq_true] at hni
    have sA : feedMulti (opsOf v ++ [.Aadd]) (.vArray acc :: st)
        = .ok (.vArray (acc ++ [v]) :: st) := by
      rw [feedMulti_append_ok _ _ _ _ (pushOne v hwf.1 hc.1 hni.1 _)]
      rfl
    rw [arrOps, feedMulti_append_ok _ _ _ _ sA, List.append_cons acc v rest]
    exact arrOps_feed rest (acc ++ [v]) st hwf.2 hc.2 hni.2
termination_by sizeOf xs
decreasing_by all_goals (simp_wf; subst_vars; (try simp) <;> omega)

end

theorem writeAll_okSink (l : List Op) (st : DState) :
    writeAll okSink l st = (⟨st.calls + l.length, st.written ++ l⟩, none) :=
  writeAll_ok okSink l st fun _ _ => rfl

theorem intBits_count (n : Nat) : ∀ i, (intBits n i).count .Ishl = i := by
  intro i
  induction i with
  | zero => rfl
  | succ i2 ih =>
    rw [intBits]
    cases htb : n.testBit i2 <;>
      simp [List.count_cons, List.count_append, ih]

mutual

theorem wf_wellKinded (v : Value) (h : wf v = true) : wellKinded v = true := by
  cases v with
  | vObject es =>
    rw [wf, Bool.and_eq_true] at h
    show wkEntries es = true
    exact wfEntries_wkEntries es h.2
  | vArray xs =>
    show wkList xs = true
    exact wfList_wkList xs h
  | vUnknown k => simp [wf] at h
  | vInt b => rfl
  | vUint b => rfl
  | vFloat b => rfl
  | vString bs => rfl
  | vBool b => rfl
  | vNil => rfl
termination_by sizeOf v
decreasing_by all_goals (simp_wf; subst_vars; (try simp) <;> omega)

theorem wfEntries_wkEntries (es : List (List Nat × Value)) (h : wfEntries es = true) :
    wkEntries es = true := by
  cases es with
  | nil => rfl
  | cons kv rest =>
  cases kv with
  | mk k v =>
    rw [wfEntries, Bool.and_eq_true, Bool.and_eq_true] at h
    rw [wkEntries, Bool.and_eq_true]
    exact ⟨wf_wellKinded v h.1.2, wfEntries_wkEntries rest h.2⟩
termination_by sizeOf es
decreasing_by all_goals (simp_wf; subst_vars; (try simp) <;> omega)

theorem wfList_wkList (xs : List Value) (h : wfList xs = true) : wkList xs = true := by
  cases xs with
  | nil => rfl
  | cons v rest =>
    rw [wfList, Bool.and_eq_true] at h
    rw [wkList, Bool.and_eq_true]
    exact ⟨wf_wellKinded v h.1, wfList_wkList rest h.2⟩
termination_by sizeOf xs
decreasing_by all_goals (simp_wf; subst_vars; (try simp) <;> omega)

end

/-- C3: for every unsigned 64-bit `n`, `dumpInt n` emits `Inew` and, for
nonzero `n`, `Iinc` followed, for each bit index from `msb - 1` down to
`0`, by `Ishl` and then `Iinc` exactly when that bit is set (the
`intBits`/`intOps` description); the output contains exactly `msb`
`Ishl` ops, where `msb` is the index of the highest set bit; and
`n = 0`, `n = 1`, `n = 3` give `[Inew]`, `[Inew, Iinc]`,
`[Inew, Iinc, Ishl, Iinc]` respectively. -/
theorem c3_dumpInt_sequence (n : Nat) (h : n < 2 ^ 64) :
    dumpInt okSink n ⟨0, []⟩ = (⟨(intOps n).length, intOps n⟩, none)
    ∧ (intOps n).count .Ishl = (if n = 0 then 0 else msb64 n)
    ∧ (0 < n → 2 ^ msb64 n ≤ n ∧ n < 2 ^ (msb64 n + 1))
    ∧ intOps 0 = [.Inew] ∧ intOps 1 = [.Inew, .Iinc]
    ∧ intOps 3 = [.Inew, .Iinc, .Ishl, .Iinc] := by
  refine ⟨?_, ?_, fun hp => hiBit_spec 64 n hp h, rfl, rfl, rfl⟩
  · rw [dumpInt_eq, writeAll_okSink]
    simp
  · rw [intOps]
    by_cases h0 : n = 0
    · simp [h0]
    · simp [h0, List.count_cons, intBits_count]

/-- Witness for C3 at the concrete input 3. -/
theorem c3_dumpInt_sequence_witness :
    3 < 2 ^ 64
    ∧ (dumpInt okSink 3 ⟨0, []⟩ = (⟨(intOps 3).length, intOps 3⟩, none)
      ∧ (intOps 3).count .Ishl = (if 3 = 0 then 0 else msb64 3)
      ∧ (0 < 3 → 2 ^ msb64 3 ≤ 3 ∧ 3 < 2 ^ (msb64 3 + 1))
      ∧ intOps 0 = [.Inew] ∧ intOps 1 = [.Inew, .Iinc]
      ∧ intOps 3 = [.Inew, .Iinc, .Ishl, .Iinc]) :=
  ⟨by norm_num, c3_dumpInt_sequence 3 (by norm_num)⟩

/-- C9: `dumpString s` emits exactly `Snew` followed, for each byte `c`
of `s` in sequence order, by the `dumpInt` sequence for `c` and then
`Sadd` — the `strOps` description. -/
theorem c9_dumpString_sequence (bs : List Nat) :
    dumpString okSink bs ⟨0, []⟩ = (⟨(.Snew :: strOps bs).length, .Snew :: strOps bs⟩, none)
    ∧ (∀ c rest, strOps (c :: rest) = intOps c ++ [.Sadd] ++ strOps rest)
    ∧ strOps [] = [] := by
  refine ⟨?_, fun c rest => rfl, rfl⟩
  rw [dumpString_eq, writeAll_okSink]
  simp

/-- C2 (code bug): on `-Infinity` the source's `dumpFloat` does not stop
after `Finf`/`Fneg` — its `-Inf` branch has no `return`, so control falls
through and additionally emits the `dumpInt` sequence of the `-Inf` bit
pattern followed by `Itof`, contradicting the claimed output
`[Finf, Fneg]`. -/
theorem c2_dumpFloat_negInf_fallthrough :
    (dumpFloat okSink negInfBits ⟨0, []⟩).1.written
      = .Finf :: .Fneg :: (intOps negInfBits ++ [.Itof])
    ∧ (dumpFloat okSink negInfBits ⟨0, []⟩).1.written ≠ [.Finf, .Fneg]
    ∧ (dumpFloat okSink nanBits ⟨0, []⟩).1.written = [.Fnan]
    ∧ (dumpFloat okSink posInfBits ⟨0, []⟩).1.written = [.Finf] := by
  refine ⟨?_, ?_, rfl, rfl⟩ <;> decide

/-- C1 counterexample: the claim demands exact float bit patterns
including NaN, but `Fnan` is the only op `Dump` emits for a NaN and it
can only rebuild the canonical quiet NaN: dumping the signaling NaN
pattern `0x7FF0000000000001` and feeding the result back yields the
canonical pattern, a structurally different value. -/
theorem c1_nan_bits_counterexample :
    wf (.vFloat 0x7FF0000000000001) = true
    ∧ feedMulti (opsOf (.vFloat 0x7FF0000000000001)) [] = .ok [.vFloat nanBits]
    ∧ vmTop [.vFloat nanBits] = .ok (.vFloat nanBits)
    ∧ Value.vFloat nanBits ≠ .vFloat 0x7FF0000000000001 := by
  refine ⟨rfl, rfl, rfl, ?_⟩
  simp [nanBits]

/-- C1 (amended): for every well-formed value whose NaN floats carry the
canonical quiet NaN pattern and which has no `-Infinity` strictly inside
an Object or Array, dumping to an accepting sink writes exactly
`opsOf v`, and feeding that sequence to a fresh VM succeeds with `Top`
returning a value structurally equal to `v` (bit patterns included).
`-Infinity` at the root still round-trips; nested it does not, because
of the `dumpFloat` fall-through recorded in C2. -/
theorem c1_roundTrip (v : Value) (hwf : wf v = true) (hc : canonNaN v = true)
    (hne : nestedOk v = true) :
    dump okSink v ⟨0, []⟩ = (⟨(opsOf v).length, opsOf v⟩, none)
    ∧ ∃ stk, feedMulti (opsOf v) [] = .ok stk ∧ vmTop stk = .ok v := by
  refine ⟨?_, ?_⟩
  · rw [dump_eq okSink v (wf_wellKinded v hwf), writeAll_okSink]
    simp
  · cases v with
    | vFloat b =>
      by_cases hb : b = negInfBits
      · subst hb
        refine ⟨[.vFloat negInfBits, .vFloat negInfBits], ?_, rfl⟩
        have h1 : feedMulti [Op.Finf, Op.Fneg] [] = .ok [.vFloat negInfBits] := rfl
        show feedMulti ([Op.Finf, Op.Fneg] ++ (intOps negInfBits ++ [Op.Itof])) []
          = .ok [.vFloat negInfBits, .vFloat negInfBits]
        rw [feedMulti_append_ok _ _ _ _ h1,
          feedMulti_append_ok _ _ _ _ (pushInt negInfBits (by decide) _)]
        rfl
      · exact ⟨[.vFloat b], pushOne _ hwf hc (by simp [noNegInf, hb]) [], rfl⟩
    | vInt b => exact ⟨[.vInt b], pushOne _ hwf hc hne [], rfl⟩
    | vUint b => exact ⟨[.vUint b], pushOne _ hwf hc hne [], rfl⟩
    | vString bs => exact ⟨[.vString bs], pushOne _ hwf hc hne [], rfl⟩
    | vObject es => exact ⟨[.vObject es], pushOne _ hwf hc hne [], rfl⟩
    | vArray xs => exact ⟨[.vArray xs], pushOne _ hwf hc hne [], rfl⟩
    | vBool b => exact ⟨[.vBool b], pushOne _ hwf hc hne [], rfl⟩
    | vNil => exact ⟨[.vNil], pushOne _ hwf hc hne [], rfl⟩
    | vUnknown k => simp [wf] at hwf

/-- Witness for C1 at a concrete object holding an array. -/
theorem c1_roundTrip_witness :
    wf sampleValue = true ∧ canonNaN sampleValue = true ∧ nestedOk sampleValue = true
    ∧ (dump okSink sampleValue ⟨0, []⟩
        = (⟨(opsOf sampleValue).length, opsOf sampleValue⟩, none)
      ∧ ∃ stk, feedMulti (opsOf sampleValue) [] = .ok stk ∧ vmTop stk = .ok sampleValue) :=
  ⟨rfl, rfl, rfl, c1_roundTrip sampleValue rfl rfl rfl⟩

/-- C5: if the sink accepts the first `i` writes and rejects the next
one with error `e`, then `Dump` of a well-kinded value whose full
sequence is longer than `i` stops at that write — exactly the first `i`
ops have been written, nothing after — and returns the sink's error `e`
unchanged. -/
theorem c5_sink_error_propagation {E : Type} (v : Value) (s : Sink E) (i : Nat) (e : E)
    (hwk : wellKinded v = true) (hlen : i < (opsOf v).length)
    (hpre : ∀ j, j < i → s j = none) (hf : s i = some e) :
    dump s v ⟨0, []⟩ = (⟨i + 1, (opsOf v).take i⟩, some (.sink e)) := by
  rw [dump_eq s v hwk,
    writeAll_fail s (opsOf v) ⟨0, []⟩ i e hlen (fun j hj => by simpa using hpre j hj)
      (by simpa using hf)]
  simp

/-- Witness for C5: dumping `Bool(true)` into a sink that rejects the
second write with error 42 aborts after writing only `Bnew`. -/
theorem c5_sink_error_propagation_witness :
    wellKinded (.vBool true) = true
    ∧ 1 < (opsOf (.vBool true)).length
    ∧ (∀ j, j < 1 → failSink j = none)
    ∧ failSink 1 = some 42
    ∧ dump failSink (.vBool true) ⟨0, []⟩
      = (⟨1 + 1, (opsOf (.vBool true)).take 1⟩, some (.sink 42)) :=
  ⟨rfl, by decide, by decide, rfl,
    c5_sink_error_propagation (.vBool true) failSink 1 42 rfl (by decide) (by decide) rfl⟩

/-- C6: an op fed to a stack holding fewer elements than its operand
count always fails with StackEmpty, whatever the kinds of the elements
that are present. -/
theorem c6_arity_stackEmpty (op : Op) (st : List Value) (h : st.length < arity op) :
    feed op st = .error .stackEmpty := by
  cases op <;>
    rcases st with _ | ⟨a, _ | ⟨b, _ | ⟨c, rest⟩⟩⟩ <;>
    simp [arity] at h <;>
    first
      | omega
      | rfl
      | (cases a <;> rfl)
      | (cases a <;> cases b <;> rfl)

/-- Witness for C6: `Oadd` on a stack holding only a String and an Int
(neither the required Object) fails with StackEmpty, not TypeMismatch. -/
theorem c6_arity_stackEmpty_witness :
    ([Value.vInt 1, Value.vString [104, 111, 103, 101]] : List Value).length < arity .Oadd
    ∧ feed .Oadd [.vInt 1, .vString [104, 111, 103, 101]] = .error .stackEmpty :=
  ⟨by decide,
    c6_arity_stackEmpty .Oadd [.vInt 1, .vString [104, 111, 103, 101]] (by decide)⟩

/-- C10: on a value all of whose kinds are among the eight defined ones,
`Dump` never reaches the unknown-kind panic: with any sink and any
starting state it either succeeds or returns a sink error. -/
theorem c10_dump_no_panic {E : Type} (s : Sink E) (v : Value) (st : DState)
    (h : wellKinded v = true) :
    (dump s v st).2 = none ∨ ∃ e, (dump s v st).2 = some (DErr.sink e) := by
  rw [dump_eq s v h]
  exact writeAll_err s (opsOf v) st

/-- Witness for C10 at `Nil` with an accepting sink. -/
theorem c10_dump_no_panic_witness :
    wellKinded Value.vNil = true
    ∧ ((dump okSink .vNil ⟨0, []⟩).2 = none
      ∨ ∃ e, (dump okSink .vNil ⟨0, []⟩).2 = some (DErr.sink e)) :=
  ⟨rfl, c10_dump_no_panic okSink .vNil ⟨0, []⟩ rfl⟩

/-- C7 counterexample: a native input of a non-nilable kind matching no
conversion rule — a struct (named in the source's own ordering comment),
a fixed-size array, a complex number, or a uintptr — does not fail with
the unsupported-type error: the if-chain of `reflectValueToValue`
reaches `v.IsNil()`, and reflect itself panics there on a non-nilable
kind, before the `can't convert` panic is ever reached. -/
theorem c7_nonNilable_isNil_panic :
    toValue .nNonNilable = .error .isNilPanic
    ∧ toValue .nNonNilable ≠ .error .unsupportedType := by
  refine ⟨?_, ?_⟩ <;> simp [toValue, reflectValueToValue, rIsNil]

/-- C7 (amended): every native input matching no defined conversion rule
makes `ToValue` fail rather than silently coercing; an unmatched input
of nilable or slice kind (a non-nil generic slice, or a non-nil
channel/function/pointer reference) fails with the unsupported-type
(`can't convert`) panic, while an unmatched input of a non-nilable kind
(struct, fixed-size array, complex, uintptr) fails earlier, with the
panic `reflect.Value.IsNil` raises on such kinds. -/
theorem c7_unmatched_fails (n : Native) (h : unmatchedNative n = true) :
    (∃ e, toValue n = .error e)
    ∧ (n ≠ .nNonNilable → toValue n = .error .unsupportedType)
    ∧ (n = .nNonNilable → toValue n = .error .isNilPanic) := by
  cases n with
  | nArr isnil xs =>
    cases isnil with
    | false =>
      refine ⟨⟨.unsupportedType, ?_⟩, fun _ => ?_, fun hcontra => by simp at hcontra⟩ <;>
        simp [toValue, reflectValueToValue, rIsNil]
    | true => simp [unmatchedNative] at h
  | nOther isnil =>
    cases isnil with
    | false =>
      refine ⟨⟨.unsupportedType, ?_⟩, fun _ => ?_, fun hcontra => by simp at hcontra⟩ <;>
        simp [toValue, reflectValueToValue, rIsNil]
    | true => simp [unmatchedNative] at h
  | nNonNilable =>
    refine ⟨⟨.isNilPanic, ?_⟩, fun hcontra => absurd rfl hcontra, fun _ => ?_⟩ <;>
      simp [toValue, reflectValueToValue, rIsNil]
  | nNil => simp [unmatchedNative] at h
  | nBool b => simp [unmatchedNative] at h
  | nInt b => simp [unmatchedNative] at h
  | nUint b => simp [unmatchedNative] at h
  | nFloat b => simp [unmatchedNative] at h
  | nString s => simp [unmatchedNative] at h
  | nBytes isnil s => simp [unmatchedNative] at h
  | nBytesNamed isnil s => simp [unmatchedNative] at h
  | nMap isnil es => simp [unmatchedNative] at h

/-- Witness for C7 at a non-nil unconvertible nilable reference. -/
theorem c7_unmatched_fails_witness :
    unmatchedNative (.nOther false) = true
    ∧ ((∃ e, toValue (.nOther false) = .error e)
      ∧ (Native.nOther false ≠ .nNonNilable
        → toValue (.nOther false) = .error .unsupportedType)
      ∧ (Native.nOther false = .nNonNilable
        → toValue (.nOther false) = .error .isNilPanic)) :=
  ⟨rfl, c7_unmatched_fails (.nOther false) rfl⟩

/-- C8 counterexample: a nil reference of byte-sequence shape does not
always become `Nil` — a value of exact type `[]byte` is handled by
`ToValue`'s type switch before the reflective nil check, so a nil
`[]byte` is converted to the empty String. -/
theorem c8_nil_bytes_counterexample :
    toValue (.nBytes true []) = .ok (.vString [])
    ∧ toValue (.nBytes true []) ≠ .ok .vNil := by
  refine ⟨rfl, ?_⟩
  intro hcontra
  rw [show toValue (.nBytes true []) = .ok (.vString []) from rfl] at hcontra
  exact absurd hcontra (by simp)

/-- C8 (amended): within the reflection-based fallback the nil check
does precede byte-sequence and map conversion, so every nil reference
that reaches it — a nil string-keyed map, a nil generic slice, a nil
reference of unconvertible kind, or a nil named byte-slice type —
converts to `Nil`; only a nil value of exact type `[]byte` bypasses the
fallback through the type switch and yields the empty String. -/
theorem c8_nil_check_in_reflection (es : List (List Nat × Native)) (xs : List Native)
    (bs : List Nat) :
    toValue (.nMap true es) = .ok .vNil
    ∧ toValue (.nArr true xs) = .ok .vNil
    ∧ toValue (.nOther true) = .ok .vNil
    ∧ toValue (.nBytesNamed true bs) = .ok .vNil
    ∧ toValue (.nBytes true bs) = .ok (.vString bs) := by
  refine ⟨?_, ?_, ?_, ?_, rfl⟩ <;> simp [toValue, reflectValueToValue, rIsNil]

/-- C4 (code bug): the native round trip is not lossless for Array —
`FromValue` turns an Array into a generic `[]interface` sequence, but
`ToValue` has no conversion rule for such a slice (its type switch has
no slice case beyond `[]byte`, and the reflective fallback rejects it),
so converting back panics instead of returning the original Array. -/
theorem c4_array_roundtrip_fails :
    fromValue (.vArray []) = .ok (.nArr false [])
    ∧ toValue (.nArr false []) = .error .unsupportedType := by
  refine ⟨?_, by simp [toValue, reflectValueToValue, rIsNil]⟩
  simp [fromValue, fromList]
